import Mathlib

/-!
A shallow embedding, in Lean 4, of the constraint-and-lookup core of the
sp1 proving engine: virtual columns (src/core/src/air/virtual_column.rs),
lookup interactions (src/core/src/lookup/interaction.rs), chips
(src/core/src/stark/chip.rs), and the trace generation routines of the
SHA-extend and FRI-fold precompile chips
(src/core/src/syscall/precompiles/sha256/extend/trace.rs,
src/core/src/syscall/precompiles/fri_fold/trace.rs), together with a model
of the logup permutation engine described in the design document (its
implementation file, src/core/src/stark/permutation.rs, is not part of the
sources shown here, so it is modelled from the specification text).

Machine integers (usize, u32) are modelled as Nat; field elements are
carried by an abstract Lean `Field`; out-of-range slice indexing (a panic
in the source) is modelled by `List.getD` with default 0.
-/

namespace SP1

/-- The type of interaction for a lookup argument
(src/core/src/lookup/interaction.rs, `enum InteractionKind`).
The Rust enum assigns explicit discriminants 1..7. -/
inductive InteractionKind : Type
  | Memory
  | Program
  | Instruction
  | Alu
  | Byte
  | Range
  | Field
  deriving DecidableEq, Repr

/-- The Rust discriminant of an `InteractionKind`, i.e. the value of
`kind as usize` (Memory = 1, ..., Field = 7). -/
def InteractionKind.index : InteractionKind → Nat
  | .Memory => 1
  | .Program => 2
  | .Instruction => 3
  | .Alu => 4
  | .Byte => 5
  | .Range => 6
  | .Field => 7

/-- `InteractionKind::all_kinds` from src/core/src/lookup/interaction.rs. -/
def InteractionKind.all_kinds : List InteractionKind :=
  [.Memory, .Program, .Instruction, .Alu, .Byte, .Range, .Field]

/-- A reference to a cell of either the preprocessed row or the main row
(p3_air::PairCol, the logical-column-reference of the spec's data model). -/
inductive PairCol : Type
  | Preprocessed (idx : Nat)
  | Main (idx : Nat)
  deriving DecidableEq, Repr

/-- `PairCol::get`: select the referenced cell from the two rows.
Out-of-range access (a panic in Rust) is modelled as the value 0. -/
def PairCol.get {E : Type} [CommRing E] (c : PairCol) (preprocessed main : List E) : E :=
  match c with
  | .Preprocessed idx => preprocessed.getD idx 0
  | .Main idx => main.getD idx 0

/-- The borrowed view of a virtual pair column
(src/core/src/air/virtual_column.rs, `struct VirtualPairColView`):
a list of (column, weight) pairs and a constant. The Rust view borrows the
slice; the borrow is modelled by sharing the same list value. -/
structure VirtualPairColView (F : Type) where
  column_weights : List (PairCol × F)
  constant : F
  deriving DecidableEq

/-- The owned virtual pair column (p3_air::VirtualPairCol, the owned variant
of the spec's Virtual Column data model): an owned list of
(logical-column-reference, weight) pairs plus a constant. -/
structure VirtualPairCol (F : Type) where
  column_weights : List (PairCol × F)
  constant : F
  deriving DecidableEq

/-- `VirtualColumn::apply` for the view
(src/core/src/air/virtual_column.rs, lines 39-52): start from the constant
embedded into the evaluation algebra and fold in `cell * weight` for every
(column, weight) pair. The Rust generic context (`F: Into<Expr>`,
`Expr: AbstractField + Mul<F, Output = Expr>`, `Var: Into<Expr>`) is
modelled by a ring homomorphism `emb : F →+* E` into the evaluation algebra
`E`, with the rows already living in `E` (the `Var: Into<Expr>` images). -/
def VirtualPairColView.apply {F E : Type} [CommRing F] [CommRing E]
    (emb : F →+* E) (col : VirtualPairColView F) (preprocessed main : List E) : E :=
  List.foldl (fun result cw => result + PairCol.get cw.1 preprocessed main * emb cw.2)
    (emb col.constant) col.column_weights

/-- Modelled from the spec: the owned column's `apply` (the
`impl VirtualColumn for VirtualPairCol` at src/core/src/air/virtual_column.rs
lines 28-37 delegates to the external p3_air implementation, which is not
among the sources shown). Following the trait's documentation — "given a
`VirtualColumn` which represents the linear combination
`a * Main[0] + b * Preprocessed[1] + c`, the `apply` method will return the
value of `a * main[0] + b * preprocessed[1] + c`" — it is the sum of the
weighted referenced cells plus the constant. -/
def VirtualPairCol.apply {F E : Type} [CommRing F] [CommRing E]
    (emb : F →+* E) (col : VirtualPairCol F) (preprocessed main : List E) : E :=
  (col.column_weights.map (fun cw => PairCol.get cw.1 preprocessed main * emb cw.2)).sum
    + emb col.constant

/-- The `From<&VirtualPairCol<F>> for VirtualPairColView<'a, F>` conversion
(src/core/src/air/virtual_column.rs, lines 54-62): the view borrows the
owned column's weight list and copies its constant. -/
def VirtualPairColView.ofOwned {F : Type} (v : VirtualPairCol F) : VirtualPairColView F :=
  { column_weights := v.column_weights, constant := v.constant }

/-- An interaction for a lookup or a permutation argument
(src/core/src/lookup/interaction.rs, `struct Interaction`). -/
structure Interaction (F : Type) where
  values : List (VirtualPairCol F)
  multiplicity : VirtualPairCol F
  kind : InteractionKind
  deriving DecidableEq

/-- The zero-copy view variant
(src/core/src/lookup/interaction.rs, `struct InteractionView`). The Rust
`values: &'a [C]` borrow is modelled by sharing the list value. -/
structure InteractionView (F : Type) where
  values : List (VirtualPairColView F)
  multiplicity : VirtualPairColView F
  kind : InteractionKind
  deriving DecidableEq

/-- `Interaction::argument_index` (also the `LogupInteraction` impl):
returns `self.kind as usize`. -/
def Interaction.argument_index {F : Type} (i : Interaction F) : Nat :=
  i.kind.index

/-- `InteractionView::argument_index` (also the `LogupInteraction` impl):
returns `self.kind as usize`. -/
def InteractionView.argument_index {F : Type} (i : InteractionView F) : Nat :=
  i.kind.index

/-- `p3_util::log2_ceil_usize`: the ceiling of the base-2 logarithm, which
is `Nat.clog 2` on natural numbers. -/
def log2_ceil_usize (n : Nat) : Nat := Nat.clog 2 n

/-- A chip: an AIR together with its frozen interaction lists and the log
quotient degree (src/core/src/stark/chip.rs, `struct Chip`). The element
type of `sends`/`receives` is the owned `Interaction F` (the default
generic parameters of the Rust struct). -/
structure Chip (F A : Type) where
  air : A
  sends : List (Interaction F)
  receives : List (Interaction F)
  log_quotient_degree : Nat

/-- The fixed maximum constraint degree of `Chip::new`
(src/core/src/stark/chip.rs, line 126: `let max_constraint_degree = 3`). -/
def max_constraint_degree : Nat := 3

/-- `Chip::new` (src/core/src/stark/chip.rs, lines 117-136). The
`InteractionBuilder` pass (`let mut builder = InteractionBuilder::new(air.width());
air.eval(&mut builder); let (sends, receives) = builder.interactions();`)
lives in a source file not shown here; it is modelled from the spec as a
function `interactions` from the AIR to the harvested (sends, receives)
pair, applied exactly once. -/
def Chip.new {F A : Type} (interactions : A → List (Interaction F) × List (Interaction F))
    (air : A) : Chip F A :=
  let sr := interactions air
  { air := air
    sends := sr.1
    receives := sr.2
    log_quotient_degree := log2_ceil_usize (max_constraint_degree - 1) }

/-- The `impl PartialEq for Chip` (src/core/src/stark/chip.rs, lines
203-213): `self.air == other.air`, ignoring sends, receives and the log
quotient degree. The `A: PartialEq` bound is modelled by decidable
equality on `A`. -/
def Chip.chipEq {F A : Type} [DecidableEq A] (c1 c2 : Chip F A) : Bool :=
  c1.air = c2.air

/-- The `impl Hash for Chip` (src/core/src/stark/chip.rs, lines 223-233):
`self.air.hash(state)`, hashing only the air. The `A: Hash` bound is
modelled by an arbitrary hash function `h : A → Nat`. -/
def Chip.chipHash {F A : Type} (h : A → Nat) (c : Chip F A) : Nat :=
  h c.air

/-- Modelled from the spec: the per-interaction fingerprint of the logup
permutation engine (§4.5 step 1; the implementing file
src/core/src/stark/permutation.rs is not among the sources shown). A
fingerprint is "a random linear combination of an interaction's `values`
tuple plus a kind-dependent offset": the interaction's value columns are
evaluated on the row in the base field `F`, embedded into the challenge
extension field `EF` by `emb`, combined with the per-position random
coefficients `cs`, and shifted by the kind-dependent offset. -/
def fingerprint {F EF : Type} [CommRing F] [CommRing EF]
    (offset : InteractionKind → EF) (cs : List EF) (emb : F →+* EF)
    (i : Interaction F) (preprocessed main : List F) : EF :=
  offset i.kind +
    (List.zipWith (fun c v => c * emb (v.apply (RingHom.id F) preprocessed main))
      cs i.values).sum

/-- Modelled from the spec: the reciprocal contribution of one interaction
on one row (§4.5 step 2): `multiplicity / (β − fingerprint)`, with the
multiplicity column evaluated on the row and embedded into `EF`. Field
inversion with the Lean convention `0⁻¹ = 0`; a zero denominator is the
fatal collision case treated by the checked variant below. -/
def reciprocalContribution {F EF : Type} [CommRing F] [Field EF]
    (beta : EF) (offset : InteractionKind → EF) (cs : List EF) (emb : F →+* EF)
    (i : Interaction F) (preprocessed main : List F) : EF :=
  emb (i.multiplicity.apply (RingHom.id F) preprocessed main) *
    (beta - fingerprint offset cs emb i preprocessed main)⁻¹

/-- Modelled from the spec: the signed per-row contribution (§4.5 step 2):
sends count positively, receives negatively. -/
def rowContribution {F EF : Type} [CommRing F] [Field EF]
    (sends receives : List (Interaction F))
    (beta : EF) (offset : InteractionKind → EF) (cs : List EF) (emb : F →+* EF)
    (preprocessed main : List F) : EF :=
  (sends.map (fun i => reciprocalContribution beta offset cs emb i preprocessed main)).sum -
    (receives.map (fun i => reciprocalContribution beta offset cs emb i preprocessed main)).sum

/-- Modelled from the spec: the rows of the permutation trace (§4.5 steps
2-4), built sequentially (the running sum is "inherently sequential along
rows"). Each trace row holds one reciprocal column per send, one per
receive, and the running partial sum (the prefix sum of per-row
contributions), whose accumulator `acc` starts at zero (the boundary
constraint fixes the sum to zero before the first row). A row of the main
trace is modelled as its (preprocessed, main) pair of rows. -/
def permutationTraceRows {F EF : Type} [CommRing F] [Field EF]
    (sends receives : List (Interaction F))
    (beta : EF) (offset : InteractionKind → EF) (cs : List EF) (emb : F →+* EF)
    (acc : EF) : List (List F × List F) → List (List EF)
  | [] => []
  | r :: rest =>
    ((sends ++ receives).map
        (fun i => reciprocalContribution beta offset cs emb i r.1 r.2) ++
      [acc + rowContribution sends receives beta offset cs emb r.1 r.2]) ::
      permutationTraceRows sends receives beta offset cs emb
        (acc + rowContribution sends receives beta offset cs emb r.1 r.2) rest

/-- Modelled from the spec: `generate_permutation_trace`
(called by `Chip::generate_permutation_trace`, src/core/src/stark/chip.rs
lines 59-76; its body is in src/core/src/stark/permutation.rs, not among
the sources shown). Builds the logup auxiliary trace with the running sum
starting at zero. -/
def generate_permutation_trace {F EF : Type} [CommRing F] [Field EF]
    (sends receives : List (Interaction F))
    (beta : EF) (offset : InteractionKind → EF) (cs : List EF) (emb : F →+* EF)
    (rows : List (List F × List F)) : List (List EF) :=
  permutationTraceRows sends receives beta offset cs emb 0 rows

/-- The final accumulated value of a permutation trace: the last entry of
its last row (the bottom cell of the running-sum column). -/
def finalAccum {EF : Type} [CommRing EF] (trace : List (List EF)) : EF :=
  (trace.getLastD []).getLastD 0

/-- Modelled from the spec (§7): the error classes a prover run can
surface. A challenge/fingerprint collision is "fatal and must be surfaced
distinctly from ordinary constraint failures". -/
inductive ProvingError : Type
  | challengeCollision
  | constraintFailure
  deriving DecidableEq, Repr

/-- Modelled from the spec (§4.5 step 2, §7): permutation trace generation
that surfaces a fingerprint equal to `β` (a zero denominator anywhere in
the trace) as the fatal `challengeCollision` error instead of skipping the
contribution or continuing. -/
def generatePermutationTraceChecked {F EF : Type} [CommRing F] [Field EF] [DecidableEq EF]
    (sends receives : List (Interaction F))
    (beta : EF) (offset : InteractionKind → EF) (cs : List EF) (emb : F →+* EF)
    (rows : List (List F × List F)) : Except ProvingError (List (List EF)) :=
  if rows.any (fun r => (sends ++ receives).any
      (fun i => beta - fingerprint offset cs emb i r.1 r.2 = 0)) then
    .error .challengeCollision
  else
    .ok (generate_permutation_trace sends receives beta offset cs emb rows)

/-- Modelled from the spec (§4.5 step 2): a collision "must trigger
challenge re-sampling, never silent skip". The driver draws challenges
from the stream `betas` and re-samples (moves to the next challenge) on a
collision; any other outcome is returned as is. -/
def generateWithResampling {F EF : Type} [CommRing F] [Field EF] [DecidableEq EF]
    (sends receives : List (Interaction F))
    (offset : InteractionKind → EF) (cs : List EF) (emb : F →+* EF)
    (rows : List (List F × List F)) :
    List EF → Except ProvingError (List (List EF))
  | [] => .error .challengeCollision
  | beta :: rest =>
    match generatePermutationTraceChecked sends receives beta offset cs emb rows with
    | .error .challengeCollision =>
      generateWithResampling sends receives offset cs emb rows rest
    | r => r

/-- `usize::next_power_of_two`: the smallest power of two greater than or
equal to `n` (and 1 for `n = 0`). The exponent is found by searching the
range `0..n` for the first `k` with `n ≤ 2 ^ k` (such a `k` exists since
`n < 2 ^ n`), keeping the definition executable by structural recursion. -/
def nextPowerOfTwo (n : Nat) : Nat :=
  2 ^ List.findIdx (fun k => decide (n ≤ 2 ^ k)) (List.range (n + 1))

/-- The padded row count used by the trace generators: the next power of
two, bumped to 4 when it would be 1 or 2
(src/core/src/syscall/precompiles/sha256/extend/trace.rs, lines 64-68). -/
def paddedRowCount (nb_rows : Nat) : Nat :=
  if nextPowerOfTwo nb_rows = 2 ∨ nextPowerOfTwo nb_rows = 1 then 4
  else nextPowerOfTwo nb_rows

/-- Modelled from the spec: `pad_rows` (crate::utils, used by
src/core/src/syscall/precompiles/fri_fold/trace.rs line 167 but not among
the sources shown): pads the row list with copies of the given inert row
up to the next power of two, minimum 4 ("row count always a power of two
(minimum 4), produced by padding with inert rows"). -/
def pad_rows {R : Type} (rows : List R) (row : R) : List R :=
  rows ++ List.replicate (paddedRowCount rows.length - rows.length) row

/-- One SHA-extend event
(input.sha_extend_events in
src/core/src/syscall/precompiles/sha256/extend/trace.rs). Only the fields
the shown code reads directly are modelled; the four read-record arrays
and the write array feed column-population helpers whose code is not among
the sources shown. -/
structure ShaExtendEvent where
  shard : Nat
  clk : Nat
  w_ptr : Nat
  deriving DecidableEq

/-- A row of the SHA-extend main trace, restricted to the columns the
shown code manipulates directly. `flagIdx` records the argument passed to
`populate_flags` (the cycle flags; its code is not among the sources shown
and, per the spec, it does not touch `is_real`, which therefore stays at
its initialized value). The remaining columns (memory read records, s0,
s1, s2, w_i) are populated by helpers not among the sources shown and are
not modelled. -/
structure ShaExtendRow (F : Type) where
  is_real : F
  flagIdx : Nat
  shard : F
  clk : F
  w_ptr : F
  deriving DecidableEq

instance {F : Type} [CommRing F] : Inhabited (ShaExtendRow F) :=
  ⟨{ is_real := 0, flagIdx := 0, shard := 0, clk := 0, w_ptr := 0 }⟩

/-- The 48 real rows one SHA-extend event contributes: for each
`j < 48`, a fresh zero row gets its flags from `populate_flags(j)`, the
event's shard, clk and w_ptr, and `is_real = 1`
(src/core/src/syscall/precompiles/sha256/extend/trace.rs, lines 23-59). -/
def shaExtendEventRows {F : Type} [CommRing F] (event : ShaExtendEvent) :
    List (ShaExtendRow F) :=
  (List.range 48).map (fun j =>
    { is_real := 1
      flagIdx := j
      shard := (event.shard : F)
      clk := (event.clk : F)
      w_ptr := (event.w_ptr : F) })

/-- The real (pre-padding) rows of the SHA-extend trace: 48 rows per
event, in event order. -/
def shaExtendRealRows {F : Type} [CommRing F] (events : List ShaExtendEvent) :
    List (ShaExtendRow F) :=
  (events.map shaExtendEventRows).flatten

/-- `ShaExtendChip::generate_trace`
(src/core/src/syscall/precompiles/sha256/extend/trace.rs, lines 15-81):
the real rows followed by padding rows. A padding row with index `i` is a
zero row on which only `populate_flags(i)` is run, so its `is_real` stays
0. The side channel of newly derived field events appended to the output
record is not modelled (no claim concerns it). -/
def ShaExtendChip.generate_trace {F : Type} [CommRing F]
    (events : List ShaExtendEvent) : List (ShaExtendRow F) :=
  let rows := shaExtendRealRows (F := F) events
  let nb_rows := rows.length
  rows ++ (List.range (paddedRowCount nb_rows - nb_rows)).map (fun i =>
    { is_real := 0, flagIdx := nb_rows + i, shard := 0, clk := 0, w_ptr := 0 })

/-- One FRI-fold event
(input.fri_fold_events in
src/core/src/syscall/precompiles/fri_fold/trace.rs). The read/write
record arrays are modelled by their value sequences; `num`/`denom` and the
memory-record metadata feed population helpers whose code is not among the
sources shown. -/
structure FriFoldEvent where
  shard : Nat
  clk : Nat
  input_slice_ptr : Nat
  output_slice_ptr : Nat
  output_slice_read_values : List Nat
  deriving DecidableEq

/-- A row of the FRI-fold main trace, restricted to the columns the shown
code sets directly (src/core/src/syscall/precompiles/fri_fold/trace.rs).
The memory read/write record columns and `div_ext_op` are populated by
helpers whose code is not among the sources shown and are not modelled. -/
structure FriFoldRow (F : Type) where
  is_real : F
  is_input : F
  shard : F
  clk : F
  input_slice_ptr : F
  output_slice_ptr : F
  ro_addr : F
  alpha_pow_addr : F
  deriving DecidableEq

instance {F : Type} [CommRing F] : Inhabited (FriFoldRow F) :=
  ⟨{ is_real := 0, is_input := 0, shard := 0, clk := 0, input_slice_ptr := 0,
     output_slice_ptr := 0, ro_addr := 0, alpha_pow_addr := 0 }⟩

/-- The all-zero inert padding row used by `pad_rows`
(src/core/src/syscall/precompiles/fri_fold/trace.rs, line 167:
`[F::zero(); NUM_FRI_FOLD_COLS]`). -/
def friFoldZeroRow {F : Type} [CommRing F] : FriFoldRow F :=
  { is_real := 0, is_input := 0, shard := 0, clk := 0, input_slice_ptr := 0,
    output_slice_ptr := 0, ro_addr := 0, alpha_pow_addr := 0 }

/-- The two rows one FRI-fold event contributes
(src/core/src/syscall/precompiles/fri_fold/trace.rs, lines 45-159): first
the input row (`is_real = 1`, `is_input = 1`, the event's data,
`ro_addr`/`alpha_pow_addr` read from the output-slice read records at the
indices `RO_ADDR_IDX`/`ALPHA_POW_ADDR_IDX`, constants defined in a source
file not shown here and therefore taken as parameters), then the output
row (`is_real = 1`, `is_input = 0`, `clk` shifted by 4, addresses copied
from the input row, the remaining modelled columns left at zero). -/
def friFoldEventRows {F : Type} [CommRing F] (roIdx alphaIdx : Nat)
    (event : FriFoldEvent) : List (FriFoldRow F) :=
  let inputRow : FriFoldRow F :=
    { is_real := 1
      is_input := 1
      shard := (event.shard : F)
      clk := (event.clk : F)
      input_slice_ptr := (event.input_slice_ptr : F)
      output_slice_ptr := (event.output_slice_ptr : F)
      ro_addr := (event.output_slice_read_values.getD roIdx 0 : F)
      alpha_pow_addr := (event.output_slice_read_values.getD alphaIdx 0 : F) }
  let outputRow : FriFoldRow F :=
    { is_real := 1
      is_input := 0
      shard := (event.shard : F)
      clk := (event.clk : F) + 4
      input_slice_ptr := 0
      output_slice_ptr := 0
      ro_addr := inputRow.ro_addr
      alpha_pow_addr := inputRow.alpha_pow_addr }
  [inputRow, outputRow]

/-- The pre-padding rows of the FRI-fold trace: two rows per event, in
event order (the parallel iterator of the source preserves the order of
the event list). -/
def friFoldRealRows {F : Type} [CommRing F] (roIdx alphaIdx : Nat)
    (events : List FriFoldEvent) : List (FriFoldRow F) :=
  (events.map (friFoldEventRows roIdx alphaIdx)).flatten

/-- `FriFoldChip::generate_trace`
(src/core/src/syscall/precompiles/fri_fold/trace.rs, lines 36-174): the
per-event rows followed by `pad_rows` with the all-zero row. The side
channel of newly derived field events and the diagnostic console output
are not modelled (no claim concerns them). -/
def FriFoldChip.generate_trace {F : Type} [CommRing F] (roIdx alphaIdx : Nat)
    (events : List FriFoldEvent) : List (FriFoldRow F) :=
  pad_rows (friFoldRealRows roIdx alphaIdx events) friFoldZeroRow

instance : Inhabited FriFoldEvent := ⟨⟨0, 0, 0, 0, []⟩⟩

/-- The toy interaction of the two-chip test system: the tuple `(3, 5)`
(as constant virtual columns) with constant multiplicity `2` under kind
`Memory`. -/
def toyTuple (F : Type) [CommRing F] : Interaction F :=
  { values := [⟨[], 3⟩, ⟨[], 5⟩], multiplicity := ⟨[], 2⟩, kind := .Memory }

/-- The row-pair shape the FRI-fold trace gives the `k`-th event before
padding: an input row at position `2k` (`is_input = 1`, `is_real = 1`)
followed by an output row at position `2k + 1` (`is_input = 0`,
`is_real = 1`, `clk` shifted by 4, addresses copied from the input row). -/
def friFoldRowPairProp (F : Type) [CommRing F] (roIdx alphaIdx : Nat)
    (events : List FriFoldEvent) (k : Nat) : Prop :=
  ((friFoldRealRows (F := F) roIdx alphaIdx events).getD (2 * k) default).is_input = 1 ∧
  ((friFoldRealRows (F := F) roIdx alphaIdx events).getD (2 * k) default).is_real = 1 ∧
  ((friFoldRealRows (F := F) roIdx alphaIdx events).getD (2 * k + 1) default).is_input = 0 ∧
  ((friFoldRealRows (F := F) roIdx alphaIdx events).getD (2 * k + 1) default).is_real = 1 ∧
  ((friFoldRealRows (F := F) roIdx alphaIdx events).getD (2 * k + 1) default).clk =
    ((events.getD k default).clk : F) + 4 ∧
  ((friFoldRealRows (F := F) roIdx alphaIdx events).getD (2 * k + 1) default).ro_addr =
    ((friFoldRealRows (F := F) roIdx alphaIdx events).getD (2 * k) default).ro_addr ∧
  ((friFoldRealRows (F := F) roIdx alphaIdx events).getD (2 * k + 1) default).alpha_pow_addr =
    ((friFoldRealRows (F := F) roIdx alphaIdx events).getD (2 * k) default).alpha_pow_addr

instance fact_prime_101 : Fact (Nat.Prime 101) := ⟨by norm_num⟩

/-! ## Helper lemmas -/

theorem foldl_add_map {α E : Type} [AddCommMonoid E] (f : α → E) (a : E) (l : List α) :
    l.foldl (fun r x => r + f x) a = a + (l.map f).sum := by
  induction l generalizing a with
  | nil => simp
  | cons x t ih => simp [ih, add_assoc]

theorem getD_map_ringHom {E E2 : Type} [CommRing E] [CommRing E2] (g : E →+* E2)
    (l : List E) (i : Nat) : (l.map g).getD i 0 = g (l.getD i 0) := by
  induction l generalizing i with
  | nil => simp
  | cons a t ih =>
    cases i with
    | zero => simp
    | succ k => simpa using ih k

theorem get_map_ringHom {E E2 : Type} [CommRing E] [CommRing E2] (g : E →+* E2)
    (c : PairCol) (preprocessed main : List E) :
    PairCol.get c (preprocessed.map g) (main.map g) = g (PairCol.get c preprocessed main) := by
  cases c with
  | Preprocessed idx => exact getD_map_ringHom g preprocessed idx
  | Main idx => exact getD_map_ringHom g main idx

/-! ## Claims -/

/-- Claim C2: `argument_index` is a deterministic function of the
interaction's kind alone — equal kinds give equal argument indices, for
owned interactions, for views, and across the two representations — and
it is injective: distinct `InteractionKind` values map to distinct
integers. -/
theorem c2_argument_index_deterministic_and_injective :
    (∀ (F G : Type) (i : Interaction F) (j : Interaction G),
      i.kind = j.kind → i.argument_index = j.argument_index) ∧
    (∀ (F G : Type) (i : Interaction F) (v : InteractionView G),
      i.kind = v.kind → i.argument_index = v.argument_index) ∧
    (∀ (F G : Type) (v : InteractionView F) (w : InteractionView G),
      v.kind = w.kind → v.argument_index = w.argument_index) ∧
    Function.Injective InteractionKind.index := by
  refine ⟨?_, ?_, ?_, ?_⟩
  · intro F G i j h
    simp [Interaction.argument_index, h]
  · intro F G i v h
    simp [Interaction.argument_index, InteractionView.argument_index, h]
  · intro F G v w h
    simp [InteractionView.argument_index, h]
  · intro a b h
    cases a <;> cases b <;> simp_all [InteractionKind.index]

/-- Witness for C2 at concrete interactions of equal kind (with different
multiplicities) and at a concrete pair of equal indices. -/
theorem c2_witness :
    ((⟨[], ⟨[], 0⟩, .Memory⟩ : Interaction Int).kind =
      (⟨[], ⟨[], 1⟩, .Memory⟩ : Interaction Int).kind) ∧
    (⟨[], ⟨[], 0⟩, .Memory⟩ : Interaction Int).argument_index =
      (⟨[], ⟨[], 1⟩, .Memory⟩ : Interaction Int).argument_index ∧
    (InteractionKind.index .Byte = InteractionKind.index .Byte →
      InteractionKind.Byte = InteractionKind.Byte) :=
  ⟨rfl, c2_argument_index_deterministic_and_injective.1 Int Int _ _ rfl,
    fun h => c2_argument_index_deterministic_and_injective.2.2.2 h⟩

/-- Claim C6: `Chip::new` runs the interaction-harvest pass once, stores
the harvested sends and receives unchanged together with the AIR, and
sets `log_quotient_degree` to `ceil(log2(max_constraint_degree - 1))`,
which is 1 for the fixed maximum constraint degree 3, so the constructed
chip's `log_quotient_degree` is always 1. -/
theorem c6_chip_new_freezes (F A : Type)
    (interactions : A → List (Interaction F) × List (Interaction F)) (air : A) :
    (Chip.new interactions air).air = air ∧
    (Chip.new interactions air).sends = (interactions air).1 ∧
    (Chip.new interactions air).receives = (interactions air).2 ∧
    (Chip.new interactions air).log_quotient_degree =
      log2_ceil_usize (max_constraint_degree - 1) ∧
    (Chip.new interactions air).log_quotient_degree = 1 := by
  refine ⟨rfl, rfl, rfl, rfl, ?_⟩
  have h : Nat.clog 2 2 = 1 := Nat.clog_eq_one (by norm_num) (by norm_num)
  simpa [Chip.new, log2_ceil_usize, max_constraint_degree] using h

/-- Claim C9: chip equality and hashing are determined solely by the
wrapped AIR: two chips compare equal iff their `air` fields compare
equal, and they hash identically whenever their `air` fields do, whatever
their sends, receives, or log quotient degree are. -/
theorem c9_chip_eq_hash_by_air (F A : Type) [DecidableEq A] (c1 c2 : Chip F A) :
    (Chip.chipEq c1 c2 = true ↔ c1.air = c2.air) ∧
    (∀ h : A → Nat, c1.air = c2.air → Chip.chipHash h c1 = Chip.chipHash h c2) := by
  constructor
  · simp [Chip.chipEq]
  · intro h he
    simp [Chip.chipHash, he]

/-- Witness for C9 at two concrete chips sharing the air but differing in
sends, receives and log quotient degree. -/
theorem c9_witness :
    Chip.chipEq (F := Int) (A := Nat)
      ⟨7, [⟨[], ⟨[], 0⟩, .Memory⟩], [], 1⟩ ⟨7, [], [⟨[], ⟨[], 2⟩, .Alu⟩], 0⟩ = true ∧
    Chip.chipHash (fun a => a) (⟨7, [⟨[], ⟨[], 0⟩, .Memory⟩], [], 1⟩ : Chip Int Nat) =
      Chip.chipHash (fun a => a) (⟨7, [], [⟨[], ⟨[], 2⟩, .Alu⟩], 0⟩ : Chip Int Nat) :=
  ⟨(c9_chip_eq_hash_by_air Int Nat _ _).1.mpr rfl,
    (c9_chip_eq_hash_by_air Int Nat _ _).2 (fun a => a) rfl⟩

/-- Claim C8: the borrowed view is semantically identical to the owned
representation: converting an owned `VirtualPairCol` through the `From`
impl and applying the resulting view returns exactly the owned column's
value, on any preprocessed and main rows, in every algebra. -/
theorem c8_view_eq_owned (F E : Type) [CommRing F] [CommRing E] (emb : F →+* E)
    (v : VirtualPairCol F) (preprocessed main : List E) :
    (VirtualPairColView.ofOwned v).apply emb preprocessed main =
      v.apply emb preprocessed main := by
  simp [VirtualPairColView.apply, VirtualPairCol.apply, VirtualPairColView.ofOwned,
    foldl_add_map, add_comm]

/-- Claim C7: evaluating a virtual column commutes with any change of
algebra: for every weights-and-constant column and every ring
homomorphism `g` between evaluation algebras compatible with the field
embeddings, mapping the inputs through `g` and evaluating equals
evaluating and then mapping the result. (The evaluation is a pure Lean
function, hence side-effect-free.) -/
theorem c7_apply_commutes_with_algebra_map (F E E2 : Type) [CommRing F] [CommRing E]
    [CommRing E2] (emb : F →+* E) (emb2 : F →+* E2) (g : E →+* E2)
    (hcompat : ∀ x : F, g (emb x) = emb2 x)
    (col : VirtualPairColView F) (preprocessed main : List E) :
    g (col.apply emb preprocessed main) =
      col.apply emb2 (preprocessed.map g) (main.map g) := by
  unfold VirtualPairColView.apply
  rw [foldl_add_map, foldl_add_map, map_add, map_list_sum, hcompat, List.map_map]
  congr 1
  refine congrArg List.sum (List.map_congr_left ?_)
  intro cw _
  simp [Function.comp, get_map_ringHom, map_mul, hcompat]

/-- Witness for C7: the identity homomorphism on `Int` is compatible with
the identity embedding, at a concrete column and concrete rows. -/
theorem c7_witness :
    (RingHom.id Int) (VirtualPairColView.apply (RingHom.id Int) ⟨[(.Main 0, 2)], 3⟩ [] [5]) =
      VirtualPairColView.apply (RingHom.id Int) ⟨[(.Main 0, 2)], 3⟩
        (List.map (RingHom.id Int) []) (List.map (RingHom.id Int) [5]) :=
  c7_apply_commutes_with_algebra_map Int Int Int (RingHom.id Int) (RingHom.id Int)
    (RingHom.id Int) (fun _ => rfl) ⟨[(.Main 0, 2)], 3⟩ [] [5]

theorem le_nextPowerOfTwo (n : Nat) : n ≤ nextPowerOfTwo n := by
  have hex : ∃ x ∈ List.range (n + 1), (decide (n ≤ 2 ^ x)) = true :=
    ⟨n, List.mem_range.2 (Nat.lt_succ_self n),
      decide_eq_true (Nat.le_of_lt (Nat.lt_two_pow n))⟩
  have hlt := List.findIdx_lt_length_of_exists hex
  have hp := List.findIdx_getElem (w := hlt)
  rw [List.getElem_range] at hp
  exact of_decide_eq_true hp

theorem paddedRowCount_spec (n : Nat) :
    (∃ k, paddedRowCount n = 2 ^ k) ∧ 4 ≤ paddedRowCount n ∧ n ≤ paddedRowCount n := by
  have hle := le_nextPowerOfTwo n
  obtain ⟨k, hk⟩ : ∃ k, nextPowerOfTwo n = 2 ^ k :=
    ⟨List.findIdx (fun k => decide (n ≤ 2 ^ k)) (List.range (n + 1)), rfl⟩
  unfold paddedRowCount
  by_cases h : nextPowerOfTwo n = 2 ∨ nextPowerOfTwo n = 1
  · rw [if_pos h]
    refine ⟨⟨2, rfl⟩, le_refl 4, ?_⟩
    rcases h with h | h <;> omega
  · rw [if_neg h]
    rw [hk] at h hle ⊢
    push_neg at h
    refine ⟨⟨k, rfl⟩, ?_, hle⟩
    rcases k with _ | _ | k2
    · exact absurd rfl h.2
    · exact absurd rfl h.1
    · calc (4 : Nat) = 2 ^ 2 := by norm_num
        _ ≤ 2 ^ (k2 + 2) := Nat.pow_le_pow_right (by norm_num) (by omega)

theorem shaExtend_trace_length (F : Type) [CommRing F] (events : List ShaExtendEvent) :
    (ShaExtendChip.generate_trace (F := F) events).length =
      paddedRowCount (shaExtendRealRows (F := F) events).length := by
  have hle := (paddedRowCount_spec (shaExtendRealRows (F := F) events).length).2.2
  simp only [ShaExtendChip.generate_trace, List.length_append, List.length_map,
    List.length_range]
  omega

theorem pad_rows_length {R : Type} (rows : List R) (r : R) :
    (pad_rows rows r).length = paddedRowCount rows.length := by
  have hle := (paddedRowCount_spec rows.length).2.2
  simp only [pad_rows, List.length_append, List.length_replicate]
  omega

/-- Claim C4: for every input execution record (any event list, empty or
not) the main trace returned by `generate_trace` has a power-of-two
number of rows, at least 4 — for the SHA-extend chip and the FRI-fold
chip alike. -/
theorem c4_row_count_power_of_two_min_four (F : Type) [CommRing F] :
    (∀ events : List ShaExtendEvent,
      (∃ k, (ShaExtendChip.generate_trace (F := F) events).length = 2 ^ k) ∧
        4 ≤ (ShaExtendChip.generate_trace (F := F) events).length) ∧
    (∀ (roIdx alphaIdx : Nat) (events : List FriFoldEvent),
      (∃ k, (FriFoldChip.generate_trace (F := F) roIdx alphaIdx events).length = 2 ^ k) ∧
        4 ≤ (FriFoldChip.generate_trace (F := F) roIdx alphaIdx events).length) := by
  constructor
  · intro events
    rw [shaExtend_trace_length]
    exact ⟨(paddedRowCount_spec _).1, (paddedRowCount_spec _).2.1⟩
  · intro roIdx alphaIdx events
    unfold FriFoldChip.generate_trace
    rw [pad_rows_length]
    exact ⟨(paddedRowCount_spec _).1, (paddedRowCount_spec _).2.1⟩

theorem getLastD_ne_nil {α : Type} (l : List α) (a b : α) (h : l ≠ []) :
    l.getLastD a = l.getLastD b := by
  cases l with
  | nil => exact absurd rfl h
  | cons x t => rw [List.getLastD_cons, List.getLastD_cons]

theorem finalAccum_cons {EF : Type} [CommRing EF] (x : List EF) (t : List (List EF))
    (h : t ≠ []) : finalAccum (x :: t) = finalAccum t := by
  unfold finalAccum
  rw [List.getLastD_cons]
  exact congrArg (fun l => l.getLastD 0) (getLastD_ne_nil t x [] h)

theorem permutationTraceRows_ne_nil {F EF : Type} [CommRing F] [Field EF]
    (sends receives : List (Interaction F)) (beta : EF) (offset : InteractionKind → EF)
    (cs : List EF) (emb : F →+* EF) (acc : EF) (r : List F × List F)
    (rest : List (List F × List F)) :
    permutationTraceRows sends receives beta offset cs emb acc (r :: rest) ≠ [] := by
  simp [permutationTraceRows]

theorem permutationTraceRows_finalAccum {F EF : Type} [CommRing F] [Field EF]
    (sends receives : List (Interaction F)) (beta : EF) (offset : InteractionKind → EF)
    (cs : List EF) (emb : F →+* EF) :
    ∀ (rows : List (List F × List F)) (acc : EF), rows ≠ [] →
      finalAccum (permutationTraceRows sends receives beta offset cs emb acc rows) =
        rows.foldl
          (fun a r => a + rowContribution sends receives beta offset cs emb r.1 r.2) acc := by
  intro rows
  induction rows with
  | nil => intro acc h; exact absurd rfl h
  | cons r rest ih =>
    intro acc _
    cases rest with
    | nil =>
      simp [permutationTraceRows, finalAccum, List.getLastD_concat]
    | cons r2 rest2 =>
      rw [show permutationTraceRows sends receives beta offset cs emb acc (r :: r2 :: rest2) =
          ((sends ++ receives).map
              (fun i => reciprocalContribution beta offset cs emb i r.1 r.2) ++
            [acc + rowContribution sends receives beta offset cs emb r.1 r.2]) ::
            permutationTraceRows sends receives beta offset cs emb
              (acc + rowContribution sends receives beta offset cs emb r.1 r.2)
              (r2 :: rest2) from rfl]
      rw [finalAccum_cons _ _ (permutationTraceRows_ne_nil _ _ _ _ _ _ _ _ _)]
      rw [ih _ (by simp)]
      rfl

theorem rowContribution_eq_zero {F EF : Type} [CommRing F] [Field EF]
    (sends receives : List (Interaction F)) (beta : EF) (offset : InteractionKind → EF)
    (cs : List EF) (emb : F →+* EF) (p m : List F)
    (hs : ∀ i ∈ sends, i.multiplicity.apply (RingHom.id F) p m = 0)
    (hr : ∀ i ∈ receives, i.multiplicity.apply (RingHom.id F) p m = 0) :
    rowContribution sends receives beta offset cs emb p m = 0 := by
  unfold rowContribution
  have h1 : (sends.map (fun i => reciprocalContribution beta offset cs emb i p m)).sum = 0 := by
    apply List.sum_eq_zero
    intro x hx
    obtain ⟨i, hi, rfl⟩ := List.mem_map.1 hx
    simp [reciprocalContribution, hs i hi]
  have h2 : (receives.map (fun i => reciprocalContribution beta offset cs emb i p m)).sum = 0 := by
    apply List.sum_eq_zero
    intro x hx
    obtain ⟨i, hi, rfl⟩ := List.mem_map.1 hx
    simp [reciprocalContribution, hr i hi]
  rw [h1, h2, sub_zero]

theorem foldl_pad_replicate {F EF : Type} [CommRing F] [Field EF]
    (sends receives : List (Interaction F)) (beta : EF) (offset : InteractionKind → EF)
    (cs : List EF) (emb : F →+* EF) (pad : List F × List F)
    (hc : rowContribution sends receives beta offset cs emb pad.1 pad.2 = 0) :
    ∀ (n : Nat) (acc : EF),
      (List.replicate n pad).foldl
        (fun a r => a + rowContribution sends receives beta offset cs emb r.1 r.2) acc = acc := by
  intro n
  induction n with
  | zero => intro acc; rfl
  | succ n2 ih =>
    intro acc
    rw [List.replicate_succ, List.foldl_cons, hc, add_zero]
    exact ih acc

/-- Claim C1: in the toy two-chip system — chip A sends the tuple `(3, 5)`
with multiplicity 2 under kind `Memory` and chip B receives the identical
tuple with the same multiplicity — for every random challenge whose
fingerprint of that tuple does not collide with `β`, the final
accumulated values of the two permutation traces produced by
`generate_permutation_trace` sum to exactly zero. -/
theorem c1_toy_two_chip_final_sum_zero (F EF : Type) [CommRing F] [Field EF]
    (emb : F →+* EF) (offset : InteractionKind → EF) (cs : List EF) (beta : EF)
    (_hnc : beta ≠ fingerprint offset cs emb (toyTuple F) [] []) :
    finalAccum (generate_permutation_trace [toyTuple F] [] beta offset cs emb [([], [])]) +
      finalAccum (generate_permutation_trace [] [toyTuple F] beta offset cs emb [([], [])]) =
      0 := by
  simp [generate_permutation_trace, permutationTraceRows, finalAccum, rowContribution,
    List.getLastD_concat]

/-- Witness for C1 over `ZMod 101` with the identity embedding, offsets
given by the argument index, coefficients `[1, 1]` and challenge `β = 7`
(the toy tuple's fingerprint is `1 + 3 + 5 = 9 ≠ 7`). -/
theorem c1_witness :
    ((7 : ZMod 101) ≠ fingerprint (fun k => (k.index : ZMod 101)) [1, 1]
      (RingHom.id (ZMod 101)) (toyTuple (ZMod 101)) [] []) ∧
    finalAccum (generate_permutation_trace [toyTuple (ZMod 101)] [] 7
        (fun k => (k.index : ZMod 101)) [1, 1] (RingHom.id (ZMod 101)) [([], [])]) +
      finalAccum (generate_permutation_trace [] [toyTuple (ZMod 101)] 7
        (fun k => (k.index : ZMod 101)) [1, 1] (RingHom.id (ZMod 101)) [([], [])]) = 0 :=
  ⟨by decide, c1_toy_two_chip_final_sum_zero (ZMod 101) (ZMod 101) (RingHom.id (ZMod 101))
    (fun k => (k.index : ZMod 101)) [1, 1] 7 (by decide)⟩

/-- Claim C3: every padding row appended by `generate_trace` to reach the
power-of-two (minimum 4) row count keeps `is_real = 0` (SHA-extend and
FRI-fold chips), and appending any number of rows on which every
interaction's multiplicity evaluates to zero leaves the final accumulated
permutation running sum unchanged. -/
theorem c3_padding_rows_inert (F EF : Type) [CommRing F] [Field EF] (emb : F →+* EF) :
    (∀ events : List ShaExtendEvent,
      ∀ r ∈ (ShaExtendChip.generate_trace (F := F) events).drop
        (shaExtendRealRows (F := F) events).length, r.is_real = 0) ∧
    (∀ (roIdx alphaIdx : Nat) (events : List FriFoldEvent),
      ∀ r ∈ (FriFoldChip.generate_trace (F := F) roIdx alphaIdx events).drop
        (friFoldRealRows (F := F) roIdx alphaIdx events).length, r.is_real = 0) ∧
    (∀ (sends receives : List (Interaction F)) (beta : EF)
        (offset : InteractionKind → EF) (cs : List EF)
        (rows : List (List F × List F)) (pad : List F × List F) (n : Nat),
      (∀ i ∈ sends, i.multiplicity.apply (RingHom.id F) pad.1 pad.2 = 0) →
      (∀ i ∈ receives, i.multiplicity.apply (RingHom.id F) pad.1 pad.2 = 0) →
      finalAccum (generate_permutation_trace sends receives beta offset cs emb
          (rows ++ List.replicate n pad)) =
        finalAccum (generate_permutation_trace sends receives beta offset cs emb rows)) := by
  refine ⟨?_, ?_, ?_⟩
  · intro events r hr
    unfold ShaExtendChip.generate_trace at hr
    rw [List.drop_left] at hr
    obtain ⟨i, _, rfl⟩ := List.mem_map.1 hr
    rfl
  · intro roIdx alphaIdx events r hr
    unfold FriFoldChip.generate_trace pad_rows at hr
    rw [List.drop_left] at hr
    rw [List.eq_of_mem_replicate hr]
    rfl
  · intro sends receives beta offset cs rows pad n hs hr
    have hc := rowContribution_eq_zero sends receives beta offset cs emb pad.1 pad.2 hs hr
    unfold generate_permutation_trace
    cases n with
    | zero => rw [List.replicate_zero, List.append_nil]
    | succ n2 =>
      cases rows with
      | nil =>
        rw [List.nil_append,
          permutationTraceRows_finalAccum sends receives beta offset cs emb _ 0 (by simp),
          foldl_pad_replicate sends receives beta offset cs emb pad hc]
        rfl
      | cons r rest =>
        rw [permutationTraceRows_finalAccum sends receives beta offset cs emb _ 0 (by simp),
          permutationTraceRows_finalAccum sends receives beta offset cs emb _ 0 (by simp),
          List.foldl_append,
          foldl_pad_replicate sends receives beta offset cs emb pad hc]

/-- Witness for C3: the concrete padding row of the empty-record SHA
trace and the FRI zero row have `is_real = 0`, a concrete interaction's
multiplicity vanishes on a concrete inert row, and appending two such
rows leaves the final accumulated sum unchanged. -/
theorem c3_witness :
    (⟨0, 0, 0, 0, 0⟩ : ShaExtendRow (ZMod 101)) ∈
      (ShaExtendChip.generate_trace (F := ZMod 101) []).drop
        (shaExtendRealRows (F := ZMod 101) ([] : List ShaExtendEvent)).length ∧
    ((⟨0, 0, 0, 0, 0⟩ : ShaExtendRow (ZMod 101)).is_real = 0) ∧
    (friFoldZeroRow (F := ZMod 101)) ∈
      (FriFoldChip.generate_trace (F := ZMod 101) 0 0 []).drop
        (friFoldRealRows (F := ZMod 101) 0 0 ([] : List FriFoldEvent)).length ∧
    ((friFoldZeroRow (F := ZMod 101)).is_real = 0) ∧
    ((⟨[], ⟨[(.Main 0, 1)], 0⟩, .Memory⟩ : Interaction (ZMod 101)).multiplicity.apply
      (RingHom.id (ZMod 101)) ([] : List (ZMod 101)) [0] = 0) ∧
    finalAccum (generate_permutation_trace
        [(⟨[], ⟨[(.Main 0, 1)], 0⟩, .Memory⟩ : Interaction (ZMod 101))] [] 7
        (fun k => (k.index : ZMod 101)) [] (RingHom.id (ZMod 101))
        ([([], [])] ++ List.replicate 2 (([] : List (ZMod 101)), [(0 : ZMod 101)]))) =
      finalAccum (generate_permutation_trace
        [(⟨[], ⟨[(.Main 0, 1)], 0⟩, .Memory⟩ : Interaction (ZMod 101))] [] 7
        (fun k => (k.index : ZMod 101)) [] (RingHom.id (ZMod 101)) [([], [])]) := by
  refine ⟨by decide, by decide, by decide, by decide, by decide, ?_⟩
  exact (c3_padding_rows_inert (ZMod 101) (ZMod 101) (RingHom.id (ZMod 101))).2.2
    [⟨[], ⟨[(.Main 0, 1)], 0⟩, .Memory⟩] [] 7 (fun k => (k.index : ZMod 101)) []
    [([], [])] (([] : List (ZMod 101)), [(0 : ZMod 101)]) 2
    (by decide) (by decide)

/-- Claim C5: a fingerprint equal to `β` anywhere in the trace makes
permutation trace generation surface the fatal `challengeCollision`
error — a failure class distinct from an ordinary constraint failure —
and the resampling driver reacts to it by moving to the next challenge;
the generation never returns an ordinary trace in that case. -/
theorem c5_collision_fatal_and_resampled (F EF : Type) [CommRing F] [Field EF]
    [DecidableEq EF] (emb : F →+* EF) (sends receives : List (Interaction F))
    (offset : InteractionKind → EF) (cs : List EF)
    (rows : List (List F × List F)) (beta : EF) (betas : List EF)
    (r : List F × List F) (i : Interaction F)
    (hrow : r ∈ rows) (hi : i ∈ sends ++ receives)
    (hcol : fingerprint offset cs emb i r.1 r.2 = beta) :
    generatePermutationTraceChecked sends receives beta offset cs emb rows =
      .error .challengeCollision ∧
    (∀ t, generatePermutationTraceChecked sends receives beta offset cs emb rows ≠ .ok t) ∧
    ProvingError.challengeCollision ≠ ProvingError.constraintFailure ∧
    generateWithResampling sends receives offset cs emb rows (beta :: betas) =
      generateWithResampling sends receives offset cs emb rows betas := by
  have hchk : generatePermutationTraceChecked sends receives beta offset cs emb rows =
      .error .challengeCollision := by
    unfold generatePermutationTraceChecked
    rw [if_pos]
    rw [List.any_eq_true]
    refine ⟨r, hrow, ?_⟩
    rw [List.any_eq_true]
    refine ⟨i, hi, ?_⟩
    simpa using sub_eq_zero.mpr hcol.symm
  refine ⟨hchk, ?_, by simp, ?_⟩
  · intro t h
    rw [hchk] at h
    exact Except.noConfusion h
  · rw [show generateWithResampling sends receives offset cs emb rows (beta :: betas) =
        match generatePermutationTraceChecked sends receives beta offset cs emb rows with
        | .error .challengeCollision =>
          generateWithResampling sends receives offset cs emb rows betas
        | r2 => r2 from rfl]
    rw [hchk]

/-- Witness for C5: over `ZMod 101` with challenge `β = 9`, the toy
tuple's fingerprint is exactly `9`, so checked generation errors out and
the driver re-samples. -/
theorem c5_witness :
    (([], []) ∈ [(([] : List (ZMod 101)), ([] : List (ZMod 101)))]) ∧
    (toyTuple (ZMod 101) ∈ [toyTuple (ZMod 101)] ++ []) ∧
    (fingerprint (fun k => (k.index : ZMod 101)) [1, 1] (RingHom.id (ZMod 101))
      (toyTuple (ZMod 101)) [] [] = 9) ∧
    generatePermutationTraceChecked [toyTuple (ZMod 101)] [] 9
        (fun k => (k.index : ZMod 101)) [1, 1] (RingHom.id (ZMod 101)) [([], [])] =
      .error .challengeCollision ∧
    generateWithResampling [toyTuple (ZMod 101)] []
        (fun k => (k.index : ZMod 101)) [1, 1] (RingHom.id (ZMod 101)) [([], [])] [9, 7] =
      generateWithResampling [toyTuple (ZMod 101)] []
        (fun k => (k.index : ZMod 101)) [1, 1] (RingHom.id (ZMod 101)) [([], [])] [7] := by
  have h := c5_collision_fatal_and_resampled (ZMod 101) (ZMod 101) (RingHom.id (ZMod 101))
    [toyTuple (ZMod 101)] [] (fun k => (k.index : ZMod 101)) [1, 1] [([], [])] 9 [7]
    ([], []) (toyTuple (ZMod 101)) (by decide) (by decide) (by decide)
  exact ⟨by decide, by decide, by decide, h.1, h.2.2.2⟩

theorem friFoldRealRows_length (F : Type) [CommRing F] (roIdx alphaIdx : Nat)
    (events : List FriFoldEvent) :
    (friFoldRealRows (F := F) roIdx alphaIdx events).length = 2 * events.length := by
  induction events with
  | nil => rfl
  | cons e rest ih =>
    have hcons : friFoldRealRows (F := F) roIdx alphaIdx (e :: rest) =
        friFoldEventRows roIdx alphaIdx e ++ friFoldRealRows (F := F) roIdx alphaIdx rest := by
      simp [friFoldRealRows]
    rw [hcons, List.length_append, ih]
    have h2 : (friFoldEventRows (F := F) roIdx alphaIdx e).length = 2 := rfl
    rw [h2, List.length_cons]
    ring

theorem friFoldRealRows_getD (F : Type) [CommRing F] (roIdx alphaIdx : Nat) :
    ∀ (events : List FriFoldEvent) (k : Nat), k < events.length →
      (friFoldRealRows (F := F) roIdx alphaIdx events).getD (2 * k) default =
        (friFoldEventRows roIdx alphaIdx (events.getD k default)).getD 0 default ∧
      (friFoldRealRows (F := F) roIdx alphaIdx events).getD (2 * k + 1) default =
        (friFoldEventRows roIdx alphaIdx (events.getD k default)).getD 1 default := by
  intro events
  induction events with
  | nil => intro k hk; simp at hk
  | cons e rest ih =>
    intro k hk
    have hexp : friFoldRealRows (F := F) roIdx alphaIdx (e :: rest) =
        (friFoldEventRows roIdx alphaIdx e).getD 0 default ::
          (friFoldEventRows roIdx alphaIdx e).getD 1 default ::
            friFoldRealRows (F := F) roIdx alphaIdx rest := rfl
    cases k with
    | zero =>
      rw [hexp]
      exact ⟨rfl, rfl⟩
    | succ k2 =>
      have h2 : k2 < rest.length := by simpa using hk
      have ihk := ih k2 h2
      have hidx0 : 2 * (k2 + 1) = 2 * k2 + 1 + 1 := by ring
      rw [hexp, hidx0]
      simp only [List.getD_cons_succ]
      exact ihk

/-- Claim C10: for every execution record, `FriFoldChip::generate_trace`
emits, before padding, exactly two rows per FRI-fold event in event
order: first an input row with `is_input = 1`, then an output row with
`is_input = 0`, both with `is_real = 1`; the output row's `clk` equals
the event's `clk` plus 4 and its `ro_addr` and `alpha_pow_addr` equal the
input row's. -/
theorem c10_fri_fold_two_rows_per_event (F : Type) [CommRing F]
    (roIdx alphaIdx : Nat) (events : List FriFoldEvent) :
    (friFoldRealRows (F := F) roIdx alphaIdx events).length = 2 * events.length ∧
    ∀ k, k < events.length → friFoldRowPairProp F roIdx alphaIdx events k := by
  refine ⟨friFoldRealRows_length F roIdx alphaIdx events, ?_⟩
  intro k hk
  obtain ⟨h0, h1⟩ := friFoldRealRows_getD F roIdx alphaIdx events k hk
  unfold friFoldRowPairProp
  rw [h0, h1]
  refine ⟨rfl, rfl, rfl, rfl, rfl, rfl, rfl⟩

/-- Witness for C10 at a concrete single-event record over `ZMod 101`. -/
theorem c10_witness :
    (0 : Nat) < ([(⟨1, 10, 100, 200, [55, 66]⟩ : FriFoldEvent)]).length ∧
    friFoldRowPairProp (ZMod 101) 0 1 [⟨1, 10, 100, 200, [55, 66]⟩] 0 :=
  ⟨by decide, (c10_fri_fold_two_rows_per_event (ZMod 101) 0 1
    [⟨1, 10, 100, 200, [55, 66]⟩]).2 0 (by decide)⟩

end SP1
